import Mathlib

/-!
Bag-of-visual-words pipeline of `simpleneuralnetwork.cpp`.

A shallow embedding of the functions of `src/simpleneuralnetwork.cpp` that carry the
descriptor ranges, the descriptor pool, the histogram encoding and the row shuffle.

Conventions of the embedding.

* The `int` fields `startRange` and `endRange` and the variable `start` are integers; the
  assignment `endRange = start + keypoints.size()` is computed in `size_t` and narrowed to
  32 bits, as the source does.  The other signed-to-unsigned conversions (`result == -1`,
  the argument of `pop_back`) are written with an explicit reduction modulo `2 ^ 64`.
  Row and column counts of matrices and the counter `dataCount` are natural numbers, and
  the row index `dp.startRange + i` is the integer sum (its overflow is undefined in C++).
* External capabilities whose code is not part of the program (`cv::imread`, the
  `Detector` of `sift.h`, `cv::kmeans`, `std::random_device`, `std::random_shuffle`) are
  parameters: an image reader and a detector, the label matrix that `cv::kmeans` filled,
  the stream of drawn index pairs, an arbitrary permutation.
* A `cv::Mat` of descriptors is its dimensions and its element accessor; a matrix that is
  handled row by row (`trainingData`, `responses`, the arguments of
  `shuffleTrainingData`) is the list of its rows.
* A `float` or `double` value is the rational number it stands for; every arithmetic
  operation of the histogram encoding is followed by the rounding to the nearest value of
  its format.
-/

namespace SmokeDetection

/-! ## Data model -/

/-- A `cv::Mat` seen through `rows`, `cols` and `at<float>(i, j)`. -/
structure Mat (α : Type) where
  rows : Nat
  cols : Nat
  atFloat : Nat → Nat → α

/-- The `struct DataPoint` of the source (lines 31-37). -/
structure DataPoint (α : Type) where
  fileName : List Char
  isPositive : Bool
  startRange : Int
  endRange : Int
  descriptors : Mat α

/-- What the call `sift(img, Mat(), keypoints, dataPoint.descriptors)` leaves behind:
the size of the (overwritten) `keypoints` vector and the descriptor matrix. -/
structure Detection (α : Type) where
  keypoints : Nat
  descriptors : Mat α

/-- The external image capabilities used by `getDescriptorsAndKeypoints`:
`imread` yields `none` for an image with `img.empty()`, `sift` is the `Detector`. -/
structure Vision (Img α : Type) where
  imread : List Char → Option Img
  sift : Img → Detection α

/-! ## Integer conversions, `std::string::find` and the marker test -/

/-- The value `std::string::npos`, the largest `size_t`. -/
def npos : Nat := 2 ^ 64 - 1

/-- Conversion of a signed integer to `size_t` (64 bit). -/
def toSizeT (z : Int) : Nat := (z % 2 ^ 64).toNat

/-- Conversion of a `size_t` value to `int`: the low 32 bits in two's complement. -/
def toInt32 (n : Nat) : Int :=
  if n % 2 ^ 32 < 2 ^ 31 then ((n % 2 ^ 32 : Nat) : Int)
  else ((n % 2 ^ 32 : Nat) : Int) - 2 ^ 32

/-- Search of `pat` in `s` from the left; `pos` is the index of the head of `s` in the
whole string.  The first position where `pat` starts is returned, `npos` when there is
none. -/
def findFrom (pat : List Char) : List Char → Nat → Nat
  | [], pos => if pat = [] then pos else npos
  | c :: cs, pos => if pat.isPrefixOf (c :: cs) then pos else findFrom pat cs (pos + 1)

/-- The call `s.find(pat)` of `std::string`. -/
def find (s pat : List Char) : Nat := findFrom pat s 0

/-- The marker token of line 61. -/
def marker : List Char := ['c', 'a', 't']

/-! ## `getDescriptorsAndKeypoints` (lines 54-79) -/

/-- The loop of `getDescriptorsAndKeypoints` over the remaining directory entries, with
the running value of `start`.  An entry whose image is empty is skipped by `continue`;
otherwise a `DataPoint` is pushed and `start` moves to its `endRange`.  In
`start + keypoints.size()` the `int` is converted to `size_t`, the sum is taken modulo
`2 ^ 64`, and the assignment to the `int` field keeps its low 32 bits. -/
def getDescriptorsAndKeypointsFrom {Img α : Type} (W : Vision Img α) :
    List (List Char) → Int → List (DataPoint α)
  | [], _ => []
  | p :: rest, start =>
    let result := find p marker
    match W.imread p with
    | none => getDescriptorsAndKeypointsFrom W rest start
    | some img =>
      let det := W.sift img
      let endRange := toInt32 ((toSizeT start + det.keypoints) % 2 ^ 64)
      { fileName := p
        isPositive := if result = toSizeT (-1) then true else false
        startRange := start
        endRange := endRange
        descriptors := det.descriptors } :: getDescriptorsAndKeypointsFrom W rest endRange

/-- The function `getDescriptorsAndKeypoints`: the loop started with `start = 0`. -/
def getDescriptorsAndKeypoints {Img α : Type} (W : Vision Img α) (v : List (List Char)) :
    List (DataPoint α) :=
  getDescriptorsAndKeypointsFrom W v 0

/-- Sum of the sizes `keypoints.size()` that the detector leaves for the readable images
of `v`. -/
def totalKeypoints {Img α : Type} (W : Vision Img α) (v : List (List Char)) : Nat :=
  ((v.filterMap W.imread).map (fun img => (W.sift img).keypoints)).sum

/-! ## The descriptor pool in `main` (lines 89-122) -/

/-- One assignment `descriptorSet.at<float>(row, col) = value` of line 113. -/
structure CellWrite (α : Type) where
  row : Int
  col : Nat
  value : α
deriving DecidableEq

/-- State of the copy loop of `main`: the assignments made to `descriptorSet`, in program
order, and the counter `dataCount`. -/
structure CopyState (α : Type) where
  writes : List (CellWrite α)
  dataCount : Nat

/-- The loop over `j` (lines 112-114) for row `i` of the descriptors of `dp`: the
assignments `descriptorSet.at<float>(dp.startRange + i, j) = dp.descriptors.at<float>(i, j)`.
Nothing compares `dp.startRange + i` with the rows of `descriptorSet`. -/
def rowWrites {α : Type} (dp : DataPoint α) (i : Nat) : List (CellWrite α) :=
  (List.range dp.descriptors.cols).map
    (fun j => { row := dp.startRange + (i : Int), col := j,
                value := dp.descriptors.atFloat i j })

/-- Body of the loop over `i` (lines 111-116): the loop over `j`, then `dataCount++`. -/
def copyRow {α : Type} (dp : DataPoint α) (st : CopyState α) (i : Nat) : CopyState α :=
  { writes := st.writes ++ rowWrites dp i
    dataCount := st.dataCount + 1 }

/-- Body of the loop over the data points (lines 110-117). -/
def copyDataPoint {α : Type} (st : CopyState α) (dp : DataPoint α) : CopyState α :=
  (List.range dp.descriptors.rows).foldl (copyRow dp) st

/-- The copy loop of `main`, started with no assignment made and `dataCount = 0`. -/
def copyDescriptors {α : Type} (dps : List (DataPoint α)) : CopyState α :=
  dps.foldl copyDataPoint { writes := [], dataCount := 0 }

/-- The call `Mat::pop_back(nelems)` on a matrix with `rows` rows, as its row count:
`CV_Assert(nelems <= rows)` fails (`none`) or the last `nelems` rows are dropped. -/
def popBack (rows nelems : Nat) : Option Nat :=
  if nelems ≤ rows then some (rows - nelems) else none

/-- Line 122, `descriptorSet.pop_back(descriptorSet.rows - dataCount)`, for a
`descriptorSet` of `capacity` rows: the signed difference is converted to `size_t`.  The
result is the row count of `descriptorSet` after the trim. -/
def trimStep (capacity dataCount : Nat) : Option Nat :=
  popBack capacity (toSizeT ((capacity : Int) - (dataCount : Int)))

/-- Lines 107-122 of `main` for a pool of `capacity` rows (`reserveSize` in `main`): row
count of `descriptorSet` after copying the descriptors of `dps` and trimming. -/
def trimmedLength {α : Type} (capacity : Nat) (dps : List (DataPoint α)) : Option Nat :=
  trimStep capacity (copyDescriptors dps).dataCount

/-! ## Floating-point rounding -/

/-- Rounding of a rational to the nearest integer, ties to the even one. -/
def roundHalfEven (q : ℚ) : ℤ :=
  if q - ⌊q⌋ < 1 / 2 then ⌊q⌋
  else if 1 / 2 < q - ⌊q⌋ then ⌊q⌋ + 1
  else if ⌊q⌋ % 2 = 0 then ⌊q⌋ else ⌊q⌋ + 1

/-- The spacing of the binary floating-point numbers with `p` significant bits and least
normal exponent `emin` around `x`; below `2 ^ emin` it is the spacing of the subnormal
numbers. -/
def quantum (p : ℕ) (emin : ℤ) (x : ℚ) : ℚ :=
  (2 : ℚ) ^ (max (Int.log 2 |x|) emin - ((p : ℤ) - 1))

/-- Rounding to the nearest floating-point number of that format, ties to even (the
IEEE 754 default).  The overflow to infinity of values beyond the format is left out. -/
def roundBinary (p : ℕ) (emin : ℤ) (x : ℚ) : ℚ :=
  if x < 0 then -((roundHalfEven (-x / quantum p emin x) : ℚ) * quantum p emin x)
  else (roundHalfEven (x / quantum p emin x) : ℚ) * quantum p emin x

/-- Rounding to `float` (binary32). -/
def roundFloat (x : ℚ) : ℚ := roundBinary 24 (-126) x

/-- Rounding to `double` (binary64). -/
def roundDouble (x : ℚ) : ℚ := roundBinary 53 (-1022) x

/-! ## Histogram encoding in `main` (lines 147-155) -/

/-- The index that `hist.at<float>(labels.at<float>(j))` addresses, from the 32-bit entry
`label` of `labels`.  `cv::kmeans` fills `labels` with `int` entries (`CV_32S`);
`labels.at<float>(j)` reads the same 32 bits as a `float` (sign, 8 exponent bits, 23
fraction bits), and the `float` is converted to the `int` parameter of `Mat::at` by
truncation.  Infinities, NaNs, negative values and values beyond `int` give no index
(`none`). -/
def labelIndex (label : Nat) : Option Nat :=
  let bits := label % 2 ^ 32
  let sign := bits / 2 ^ 31
  let e := bits / 2 ^ 23 % 256
  let m := bits % 2 ^ 23
  if e = 255 then none
  else
    let mant := if e = 0 then m else 2 ^ 23 + m
    let ex := if e = 0 then 1 else e
    let mag := if 150 ≤ ex then mant * 2 ^ (ex - 150) else mant / 2 ^ (150 - ex)
    if mag = 0 then some 0
    else if sign = 1 then none
    else if mag < 2 ^ 31 then some mag else none

/-- The statement `hist.at<float>(w)++` on a one-row `float` matrix of `hist.length`
columns: the entry plus one, rounded to `float`.  An index outside the row is an access
outside the matrix (`none`). -/
def incrementAt (hist : List ℚ) (w : Nat) : Option (List ℚ) :=
  if w < hist.length then some (hist.set w (roundFloat (hist.getD w 0 + 1))) else none

/-- The loop `for (j = ...; j < dp.endRange; j++) hist.at<float>(labels.at<float>(j))++`
with `j` the current index and `n` the number of iterations left.  `labels` lists the
32-bit entries of the label matrix, a cluster index `k` being stored as the `int` `k`;
reading before its start or past its end is `none`. -/
def histLoop (labels : List Nat) : Int → Nat → List ℚ → Option (List ℚ)
  | _, 0, hist => some hist
  | j, n + 1, hist =>
    if j < 0 then none
    else
      match labels[j.toNat]? with
      | none => none
      | some label =>
        match labelIndex label with
        | none => none
        | some w =>
          match incrementAt hist w with
          | none => none
          | some hist1 => histLoop labels (j + 1) n hist1

/-- Lines 149-152: `hist = Mat::zeros(Size(K, 1))` followed by the counting loop from
`startRange` while `j < endRange`. -/
def countWords (K : Nat) (labels : List Nat) (startRange endRange : Int) :
    Option (List ℚ) :=
  histLoop labels startRange (endRange - startRange).toNat (List.replicate K 0)

/-- The constant `DBL_EPSILON`. -/
def DBL_EPSILON : ℚ := 1 / 2 ^ 52

/-- Smallest and largest entry, as `cv::minMaxIdx` reports them. -/
def minMaxIdx (src : List ℚ) : ℚ × ℚ :=
  (src.foldl min (src.headD 0), src.foldl max (src.headD 0))

/-- The scale factor of `cv::normalize` for `NORM_MINMAX` and a `float` result:
`scale = (dmax - dmin) * (smax - smin > DBL_EPSILON ? 1. / (smax - smin) : 0)` in
`double`, then `scale = (float)scale`. -/
def minMaxScale (src : List ℚ) (a b : ℚ) : ℚ :=
  roundFloat (roundDouble (roundDouble (max a b - min a b) *
    (if roundDouble ((minMaxIdx src).2 - (minMaxIdx src).1) > DBL_EPSILON
      then roundDouble (1 / roundDouble ((minMaxIdx src).2 - (minMaxIdx src).1)) else 0)))

/-- The offset of `cv::normalize` for `NORM_MINMAX` and a `float` result:
`shift = (float)dmin - (float)(smin * scale)`. -/
def minMaxShift (src : List ℚ) (a b : ℚ) : ℚ :=
  roundFloat (roundFloat (min a b)
    - roundFloat (roundDouble ((minMaxIdx src).1 * minMaxScale src a b)))

/-- The library call `cv::normalize(src, dst, a, b, NORM_MINMAX)` on a `float` matrix, as
OpenCV implements it: `src.convertTo(dst, CV_32F, scale, shift)` stores
`src(x) * scale + shift` for every entry, the product and the sum each rounded to `float`
(with `shift = 0` a fused multiply-add gives the same value). -/
def normalize (src : List ℚ) (a b : ℚ) : List ℚ :=
  src.map (fun x => roundFloat (roundFloat (x * minMaxScale src a b) + minMaxShift src a b))

/-- The value of `hist.rows`: `hist` is created with `Size(networkInputSize, 1)`, one
row of `networkInputSize` columns. -/
def histRows : Nat := 1

/-- Lines 149-154: the row `normHist` built for the range `[startRange, endRange)`,
`normalize(hist, normHist, 0, hist.rows, NORM_MINMAX, -1, Mat())`. -/
def encode (K : Nat) (labels : List Nat) (startRange endRange : Int) : Option (List ℚ) :=
  (countWords K labels startRange endRange).map (fun hist => normalize hist 0 histRows)

/-! ## Dataset assembly in `main` (lines 137-161) -/

/-- The matrices `trainingData` and `responses`, each the list of its rows. -/
structure Dataset where
  trainingData : List (List ℚ)
  responses : List (List ℚ)

/-- The matrix `Mat::zeros(Size(2, 1))` of line 140, as its single row. -/
def zeroCode : List ℚ := List.replicate 2 0

/-- The row `positiveCode` after `positiveCode.at<float>(0,0) = 1`. -/
def positiveCode : List ℚ := zeroCode.set 0 1

/-- The row `negativeCode` after `negativeCode.at<float>(0,1) = 1`. -/
def negativeCode : List ℚ := zeroCode.set 1 1

/-- The loop of lines 147-161 over the remaining data points: `push_back` of the
normalised histogram and of the label code.  A failed histogram ends the run. -/
def assembleFrom {α : Type} (K : Nat) (labels : List Nat) :
    List (DataPoint α) → Dataset → Option Dataset
  | [], ds => some ds
  | dp :: rest, ds =>
    match encode K labels dp.startRange dp.endRange with
    | none => none
    | some normHist =>
      assembleFrom K labels rest
        { trainingData := ds.trainingData ++ [normHist]
          responses := ds.responses ++ [if dp.isPositive then positiveCode else negativeCode] }

/-- Lines 137-161 of `main` after `random_shuffle`: `dps` is the shuffled vector,
`trainingData` and `responses` start empty. -/
def assemble {α : Type} (K : Nat) (labels : List Nat) (dps : List (DataPoint α)) :
    Option Dataset :=
  assembleFrom K labels dps { trainingData := [], responses := [] }

/-! ## `shuffleTrainingData` (lines 39-52) -/

/-- Lines 45, 47, 48 (and 46, 49, 50) on one matrix.  `m.row(rand1) = m.row(rand2) + 0`
stores the entries of row `rand2` into row `rand1` of `m`.  The temporary
(`matTmp`, `responseTemp`) is `m.row(rand1)`, a header on the storage of `m` and not a
copy, so `m.row(rand2) = matTmp + 0` reads row `rand1` as it is after that store.
`Mat::row` asserts that the index is a row of the matrix (`none`). -/
def swapRows {α : Type} [Add α] [Zero α] (m : List (List α)) (rand1 rand2 : Nat) :
    Option (List (List α)) :=
  if rand1 < m.length ∧ rand2 < m.length then
    let m1 := m.set rand1 ((m.getD rand2 []).map (fun x => x + 0))
    let matTmp := m1.getD rand1 []
    some (m1.set rand2 (matTmp.map (fun x => x + 0)))
  else none

/-- The loop of `shuffleTrainingData`: iteration `i` with `n` iterations left;
`draws i` is the pair `(rand1, rand2)` drawn in iteration `i`. -/
def shuffleLoop {α : Type} [Add α] [Zero α] (draws : Nat → Nat × Nat) :
    Nat → Nat → List (List α) → List (List α) → Option (List (List α) × List (List α))
  | _, 0, m, responses => some (m, responses)
  | i, n + 1, m, responses =>
    match swapRows m (draws i).1 (draws i).2, swapRows responses (draws i).1 (draws i).2 with
    | some m1, some responses1 => shuffleLoop draws (i + 1) n m1 responses1
    | _, _ => none

/-- The function `shuffleTrainingData(m, responses)`: `responses.rows` iterations. -/
def shuffleTrainingData {α : Type} [Add α] [Zero α] (m responses : List (List α))
    (draws : Nat → Nat × Nat) : Option (List (List α) × List (List α)) :=
  shuffleLoop draws 0 responses.length m responses

/-! ## Concrete inputs -/

/-- A detector for the scenarios: an image is given by its number of keypoints and yields
one descriptor row of two columns per keypoint. -/
def scenarioSift (n : Nat) : Detection Nat :=
  { keypoints := n
    descriptors := { rows := n, cols := 2, atFloat := fun i j => 10 * i + j } }

/-- A directory for the scenarios: six readable images; any other path is unreadable. -/
def scenarioVision : Vision Nat Nat where
  imread := fun p =>
    if p = "a.jpg".toList then some 3
    else if p = "cat_b.jpg".toList then some 4
    else if p = "c.jpg".toList then some 3
    else if p = "d.jpg".toList then some 4
    else if p = "big1.jpg".toList then some 1100000000
    else if p = "big2.jpg".toList then some 1100000000
    else none
  sift := scenarioSift

/-- Three images with 3, 4 and 3 descriptors and, second in the directory, an unreadable
file. -/
def scenarioEntries : List (List Char) :=
  ["a.jpg".toList, "broken.jpg".toList, "cat_b.jpg".toList, "c.jpg".toList]

/-- Three images with 3, 4 and 4 descriptors: eleven rows. -/
def overflowEntries : List (List Char) :=
  ["a.jpg".toList, "cat_b.jpg".toList, "d.jpg".toList]

/-- Two images with 1,100,000,000 keypoints each. -/
def hugeEntries : List (List Char) :=
  ["big1.jpg".toList, "big2.jpg".toList]

/-- The data point of the image `cat_b.jpg` of `scenarioEntries`. -/
def catPoint : DataPoint Nat :=
  { fileName := "cat_b.jpg".toList
    isPositive := false
    startRange := 3
    endRange := 7
    descriptors := (scenarioSift 4).descriptors }

/-- A positive data point with the range `[0,2)`. -/
def pairPoint : DataPoint Nat :=
  { fileName := "a.jpg".toList
    isPositive := true
    startRange := 0
    endRange := 2
    descriptors := (scenarioSift 2).descriptors }

/-- The assignment of the histogram scenario: ten descriptors, four words. -/
def scenarioLabels : List Nat := [0, 1, 2, 3, 0, 1, 2, 3, 0, 1]

end SmokeDetection

/-! ## Properties of `getDescriptorsAndKeypoints` -/

namespace SmokeDetection

variable {Img α : Type}

theorem getFrom_fileNames (W : Vision Img α) (v : List (List Char)) (s : Int) :
    (getDescriptorsAndKeypointsFrom W v s).map (fun dp => dp.fileName)
      = v.filter (fun p => (W.imread p).isSome) := by
  induction v generalizing s with
  | nil => simp [getDescriptorsAndKeypointsFrom]
  | cons p rest ih =>
    cases h : W.imread p with
    | none => simp [getDescriptorsAndKeypointsFrom, h, ih]
    | some img => simp [getDescriptorsAndKeypointsFrom, h, ih]

theorem getFrom_head (W : Vision Img α) (v : List (List Char)) (s : Int) (dp : DataPoint α)
    (h : (getDescriptorsAndKeypointsFrom W v s).head? = some dp) : dp.startRange = s := by
  induction v generalizing s with
  | nil => simp [getDescriptorsAndKeypointsFrom] at h
  | cons p rest ih =>
    cases hp : W.imread p with
    | none =>
      simp only [getDescriptorsAndKeypointsFrom, hp] at h
      exact ih s h
    | some img =>
      simp only [getDescriptorsAndKeypointsFrom, hp, List.head?_cons, Option.some.injEq] at h
      rw [← h]

theorem getFrom_chain (W : Vision Img α) (v : List (List Char)) (s : Int) (i : Nat)
    (dp dp' : DataPoint α)
    (h : (getDescriptorsAndKeypointsFrom W v s)[i]? = some dp)
    (h' : (getDescriptorsAndKeypointsFrom W v s)[i + 1]? = some dp') :
    dp'.startRange = dp.endRange := by
  induction v generalizing s i with
  | nil => simp [getDescriptorsAndKeypointsFrom] at h
  | cons p rest ih =>
    cases hp : W.imread p with
    | none =>
      simp only [getDescriptorsAndKeypointsFrom, hp] at h h'
      exact ih s i h h'
    | some img =>
      simp only [getDescriptorsAndKeypointsFrom, hp] at h h'
      cases i with
      | zero =>
        simp only [List.getElem?_cons_zero, Option.some.injEq] at h
        simp only [zero_add, List.getElem?_cons_succ] at h'
        rw [← List.head?_eq_getElem?] at h'
        rw [getFrom_head W rest _ dp' h', ← h]
      | succ k =>
        simp only [List.getElem?_cons_succ] at h h'
        exact ih _ k h h'

theorem getFrom_mem (W : Vision Img α) (v : List (List Char)) (s : Int) (dp : DataPoint α)
    (h : dp ∈ getDescriptorsAndKeypointsFrom W v s) :
    dp.fileName ∈ v ∧
    (dp.isPositive = true ↔ find dp.fileName marker = toSizeT (-1)) ∧
    ∃ img, W.imread dp.fileName = some img ∧
      dp.descriptors = (W.sift img).descriptors := by
  induction v generalizing s with
  | nil => simp [getDescriptorsAndKeypointsFrom] at h
  | cons p rest ih =>
    cases hp : W.imread p with
    | none =>
      simp only [getDescriptorsAndKeypointsFrom, hp] at h
      obtain ⟨h1, h2⟩ := ih s h
      exact ⟨List.mem_cons_of_mem _ h1, h2⟩
    | some img =>
      simp only [getDescriptorsAndKeypointsFrom, hp, List.mem_cons] at h
      rcases h with h | h
      · subst h
        refine ⟨List.mem_cons_self _ _, ?_, img, hp, rfl⟩
        simp
      · obtain ⟨h1, h2⟩ := ih _ h
        exact ⟨List.mem_cons_of_mem _ h1, h2⟩

theorem getFrom_skip (W : Vision Img α) (pre post : List (List Char)) (p : List Char)
    (s : Int) (hp : W.imread p = none) :
    getDescriptorsAndKeypointsFrom W (pre ++ p :: post) s
      = getDescriptorsAndKeypointsFrom W (pre ++ post) s := by
  induction pre generalizing s with
  | nil => simp [getDescriptorsAndKeypointsFrom, hp]
  | cons q rest ih =>
    cases hq : W.imread q with
    | none =>
      rw [List.cons_append, List.cons_append]
      simp only [getDescriptorsAndKeypointsFrom, hq]
      exact ih s
    | some img =>
      rw [List.cons_append, List.cons_append]
      simp only [getDescriptorsAndKeypointsFrom, hq]
      rw [ih]

theorem toInt32_toSizeT_add (s : Int) (k : Nat) (hs : 0 ≤ s) (hk : s + k < 2 ^ 31) :
    toInt32 ((toSizeT s + k) % 2 ^ 64) = s + k := by
  unfold toInt32 toSizeT
  have h1 : (s % 2 ^ 64).toNat = s.toNat := by
    rw [Int.emod_eq_of_lt hs (by omega)]
  rw [h1]
  have h2 : (s.toNat + k) % 2 ^ 64 % 2 ^ 32 = s.toNat + k := by omega
  rw [h2, if_pos (by omega)]
  omega

theorem getFrom_sizes (W : Vision Img α) (v : List (List Char)) (s : Int) (hs : 0 ≤ s)
    (hsize : s + totalKeypoints W v < 2 ^ 31) (dp : DataPoint α)
    (h : dp ∈ getDescriptorsAndKeypointsFrom W v s) :
    0 ≤ dp.startRange ∧
    ∃ img, W.imread dp.fileName = some img ∧
      dp.endRange = dp.startRange + (W.sift img).keypoints := by
  induction v generalizing s with
  | nil => simp [getDescriptorsAndKeypointsFrom] at h
  | cons p rest ih =>
    cases hp : W.imread p with
    | none =>
      simp only [getDescriptorsAndKeypointsFrom, hp] at h
      have ht : totalKeypoints W (p :: rest) = totalKeypoints W rest := by
        simp [totalKeypoints, List.filterMap_cons, hp]
      rw [ht] at hsize
      exact ih s hs hsize h
    | some img =>
      have ht : totalKeypoints W (p :: rest)
          = (W.sift img).keypoints + totalKeypoints W rest := by
        simp [totalKeypoints, List.filterMap_cons, hp]
      rw [ht] at hsize
      push_cast at hsize
      have hend := toInt32_toSizeT_add s (W.sift img).keypoints hs (by omega)
      simp only [getDescriptorsAndKeypointsFrom, hp, List.mem_cons] at h
      rcases h with h | h
      · subst h
        exact ⟨hs, img, hp, hend⟩
      · rw [hend] at h
        exact ih _ (by omega) (by omega) h

theorem toSizeT_neg_one : toSizeT (-1) = npos := by
  decide

theorem findFrom_of_not_infix (pat s : List Char) (pos : Nat) (h : ¬ pat <:+: s) :
    findFrom pat s pos = npos := by
  induction s generalizing pos with
  | nil =>
    have hne : pat ≠ [] := fun e => h (e ▸ List.infix_refl _)
    simp [findFrom, hne]
  | cons c cs ih =>
    have hpre : ¬ pat <+: c :: cs := fun hp => h hp.isInfix
    have hcs : ¬ pat <:+: cs := fun hi => h (List.infix_cons hi)
    have hb : pat.isPrefixOf (c :: cs) = false := by
      rw [Bool.eq_false_iff]
      intro hb
      exact hpre (List.isPrefixOf_iff_prefix.mp hb)
    simp only [findFrom, hb, Bool.false_eq_true, if_false]
    exact ih (pos + 1) hcs

theorem findFrom_of_infix (pat s : List Char) (pos : Nat) (h : pat <:+: s) :
    findFrom pat s pos ≤ pos + s.length := by
  induction s generalizing pos with
  | nil =>
    have he : pat = [] := List.infix_nil.mp h
    simp [findFrom, he]
  | cons c cs ih =>
    by_cases hb : pat.isPrefixOf (c :: cs) = true
    · simp [findFrom, hb]
    · have hpre : ¬ pat <+: c :: cs := fun hp => hb (List.isPrefixOf_iff_prefix.mpr hp)
      have hcs : pat <:+: cs := by
        rcases List.infix_cons_iff.mp h with h1 | h1
        · exact absurd h1 hpre
        · exact h1
      have hb' : pat.isPrefixOf (c :: cs) = false := Bool.eq_false_iff.mpr hb
      simp only [findFrom, hb', Bool.false_eq_true, if_false]
      have := ih (pos + 1) hcs
      simp only [List.length_cons]
      omega

theorem find_eq_npos_iff (s pat : List Char) (hlen : s.length < npos) :
    find s pat = npos ↔ ¬ pat <:+: s := by
  constructor
  · intro h hin
    have := findFrom_of_infix pat s 0 hin
    unfold find at h
    omega
  · intro h
    exact findFrom_of_not_infix pat s 0 h

/-! ## Properties of the copy loop and of the trim -/

theorem foldl_copyRow (dp : DataPoint α) (l : List Nat) (st : CopyState α) :
    l.foldl (copyRow dp) st
      = { writes := st.writes ++ l.flatMap (rowWrites dp)
          dataCount := st.dataCount + l.length } := by
  induction l generalizing st with
  | nil => simp
  | cons i rest ih =>
    rw [List.foldl_cons, ih]
    simp [copyRow, List.append_assoc, Nat.add_assoc, Nat.add_comm 1]

theorem foldl_copyDataPoint (dps : List (DataPoint α)) (st : CopyState α) :
    dps.foldl copyDataPoint st
      = { writes := st.writes ++
            dps.flatMap (fun dp => (List.range dp.descriptors.rows).flatMap (rowWrites dp))
          dataCount := st.dataCount + (dps.map (fun dp => dp.descriptors.rows)).sum } := by
  induction dps generalizing st with
  | nil => simp
  | cons dp rest ih =>
    rw [List.foldl_cons, ih]
    simp [copyDataPoint, foldl_copyRow, List.append_assoc, Nat.add_assoc]

theorem mem_copyDescriptors_writes (dps : List (DataPoint α)) (w : CellWrite α) :
    w ∈ (copyDescriptors dps).writes ↔
      ∃ dp ∈ dps, ∃ i, i < dp.descriptors.rows ∧ ∃ j, j < dp.descriptors.cols ∧
        w = { row := dp.startRange + (i : Int), col := j, value := dp.descriptors.atFloat i j } := by
  simp only [copyDescriptors, foldl_copyDataPoint, List.nil_append, List.mem_flatMap,
    List.mem_range, rowWrites, List.mem_map]
  constructor
  · rintro ⟨dp, hdp, i, hi, j, hj, rfl⟩
    exact ⟨dp, hdp, i, hi, j, hj, rfl⟩
  · rintro ⟨dp, hdp, i, hi, j, hj, rfl⟩
    exact ⟨dp, hdp, i, hi, j, hj, rfl⟩

theorem trimStep_of_gt (capacity dataCount : Nat) (h : capacity < dataCount)
    (hd : dataCount < 2 ^ 31) : trimStep capacity dataCount = none := by
  have e : toSizeT ((capacity : Int) - (dataCount : Int)) = 2 ^ 64 - (dataCount - capacity) := by
    unfold toSizeT
    omega
  rw [trimStep, e, popBack, if_neg]
  omega

/-! ## Properties of the rounding -/

theorem roundHalfEven_intCast (n : ℤ) : roundHalfEven (n : ℚ) = n := by
  simp [roundHalfEven]

theorem roundHalfEven_tie (q : ℚ) (n : ℤ) (hn : n % 2 = 0) (h1 : (n : ℚ) ≤ q)
    (h2 : q ≤ n + 1 / 2) : roundHalfEven q = n := by
  have hf : ⌊q⌋ = n := by
    rw [Int.floor_eq_iff]
    constructor
    · exact h1
    · linarith
  unfold roundHalfEven
  rw [hf]
  split_ifs with a b
  · rfl
  · exfalso; linarith
  · rfl

theorem quantum_pos (p : ℕ) (emin : ℤ) (x : ℚ) : 0 < quantum p emin x := by
  unfold quantum
  positivity

theorem roundBinary_zero (p : ℕ) (emin : ℤ) : roundBinary p emin 0 = 0 := by
  simp [roundBinary, roundHalfEven]

theorem roundBinary_exact (p : ℕ) (emin : ℤ) (x : ℚ) (hx : 0 ≤ x) (n : ℤ)
    (h : x / quantum p emin x = n) : roundBinary p emin x = x := by
  unfold roundBinary
  rw [if_neg (not_lt.mpr hx), h, roundHalfEven_intCast, ← h]
  exact div_mul_cancel₀ x (quantum_pos p emin x).ne'

theorem log_two_zpow (z : ℤ) : Int.log 2 |((2 : ℚ) ^ z)| = z := by
  have h : (0 : ℚ) < 2 ^ z := by positivity
  rw [abs_of_pos h]
  have := Int.log_zpow (R := ℚ) (b := 2) (by norm_num) z
  simpa using this

theorem roundBinary_two_zpow (p : ℕ) (emin z : ℤ) (hp : 1 ≤ p) (hz : emin ≤ z) :
    roundBinary p emin ((2 : ℚ) ^ z) = 2 ^ z := by
  have h0 : (0 : ℚ) ≤ 2 ^ z := by positivity
  apply roundBinary_exact p emin _ h0 ((2 : ℤ) ^ (p - 1))
  unfold quantum
  rw [log_two_zpow, max_eq_left hz, ← zpow_sub₀ (by norm_num : (2 : ℚ) ≠ 0)]
  have : z - (z - ((p : ℤ) - 1)) = ((p - 1 : ℕ) : ℤ) := by omega
  rw [this, zpow_natCast]
  push_cast
  rfl

theorem roundBinary_natCast (p : ℕ) (emin : ℤ) (k : ℕ) (he : emin ≤ 0)
    (hk : k < 2 ^ p) : roundBinary p emin (k : ℚ) = k := by
  rcases Nat.eq_zero_or_pos k with rfl | hpos
  · simpa using roundBinary_zero p emin
  have h0 : (0 : ℚ) ≤ (k : ℚ) := by positivity
  have hlog : Nat.log 2 k < p := Nat.log_lt_of_lt_pow hpos.ne' hk
  apply roundBinary_exact p emin _ h0 ((k : ℤ) * 2 ^ (p - 1 - Nat.log 2 k))
  unfold quantum
  rw [abs_of_nonneg h0, Int.log_natCast, max_eq_left (by omega)]
  have e : ((Nat.log 2 k : ℕ) : ℤ) - ((p : ℤ) - 1) = -(((p - 1 - Nat.log 2 k : ℕ)) : ℤ) := by omega
  rw [e, zpow_neg, zpow_natCast, div_inv_eq_mul]
  push_cast
  rfl

theorem log_two_eq (x : ℚ) (e : ℤ) (h1 : (2 : ℚ) ^ e ≤ x) (h2 : x < (2 : ℚ) ^ (e + 1)) :
    Int.log 2 |x| = e := by
  have hxpos : (0 : ℚ) < x := lt_of_lt_of_le (by positivity) h1
  rw [abs_of_pos hxpos]
  have a : e ≤ Int.log 2 x :=
    (Int.zpow_le_iff_le_log (R := ℚ) (b := 2) (by norm_num) (x := e) hxpos).mp (by simpa using h1)
  have b : Int.log 2 x < e + 1 :=
    (Int.lt_zpow_iff_log_lt (R := ℚ) (b := 2) (by norm_num) (x := e + 1) hxpos).mp
      (by simpa using h2)
  omega

theorem roundFloat_saturate : roundFloat (2 ^ 24 + 1) = 2 ^ 24 := by
  have hlog : Int.log 2 |((2 : ℚ) ^ 24 + 1)| = 24 :=
    log_two_eq _ 24 (by norm_num) (by norm_num)
  unfold roundFloat roundBinary quantum
  rw [if_neg (by norm_num), hlog]
  have hq : (2 : ℚ) ^ (max (24 : ℤ) (-126) - (((24 : ℕ) : ℤ) - 1)) = 2 := by
    norm_num
  rw [hq]
  have hr : roundHalfEven (((2 : ℚ) ^ 24 + 1) / 2) = 2 ^ 23 := by
    apply roundHalfEven_tie
    · norm_num
    · push_cast; norm_num
    · push_cast; norm_num
  rw [hr]
  norm_num


theorem roundFloat_zero : roundFloat 0 = 0 := roundBinary_zero 24 (-126)

theorem roundDouble_zero : roundDouble 0 = 0 := roundBinary_zero 53 (-1022)

theorem roundFloat_one : roundFloat 1 = 1 := by
  have := roundBinary_two_zpow 24 (-126) 0 (by norm_num) (by norm_num)
  simpa [roundFloat] using this

theorem roundDouble_one : roundDouble 1 = 1 := by
  have := roundBinary_two_zpow 53 (-1022) 0 (by norm_num) (by norm_num)
  simpa [roundDouble] using this

theorem roundDouble_natCast (k : ℕ) (hk : k ≤ 2 ^ 24) : roundDouble (k : ℚ) = k :=
  roundBinary_natCast 53 (-1022) k (by norm_num)
    (lt_of_le_of_lt hk (by norm_num))

theorem roundFloat_natCast (k : ℕ) (hk : k ≤ 2 ^ 24) : roundFloat (k : ℚ) = k := by
  rcases hk.lt_or_eq with hlt | heq
  · exact roundBinary_natCast 24 (-126) k (by norm_num) hlt
  · have h := roundBinary_two_zpow 24 (-126) 24 (by norm_num) (by norm_num)
    have e : ((2 : ℚ) ^ (24 : ℤ)) = ((2 ^ 24 : ℕ) : ℚ) := by norm_num
    rw [e] at h
    rw [heq]
    exact h

/-- The `float` increment of a whole number: exact up to `2 ^ 24`, where it stops. -/
theorem roundFloat_succ (m : ℕ) (hm : m ≤ 2 ^ 24) :
    roundFloat ((m : ℚ) + 1) = ((min (m + 1) (2 ^ 24) : ℕ) : ℚ) := by
  rcases hm.lt_or_eq with hlt | heq
  · have h := roundFloat_natCast (m + 1) hlt
    push_cast at h
    rw [h, min_eq_left hlt]
    push_cast
    rfl
  · rw [heq, min_eq_right (by norm_num)]
    push_cast
    exact roundFloat_saturate

/-! ## Properties of the counting loop -/

theorem labelIndex_small (label : Nat) (h : label < 127 * 2 ^ 23) :
    labelIndex label = some 0 := by
  have hb : label % 2 ^ 32 = label := Nat.mod_eq_of_lt (by omega)
  have he : label / 2 ^ 23 % 256 = label / 2 ^ 23 := Nat.mod_eq_of_lt (by omega)
  have he2 : label / 2 ^ 23 < 127 := by omega
  have hm : label % 2 ^ 23 < 2 ^ 23 := Nat.mod_lt _ (by norm_num)
  unfold labelIndex
  simp only [hb, he]
  rw [if_neg (by omega)]
  have hmag : (if 150 ≤ (if label / 2 ^ 23 = 0 then 1 else label / 2 ^ 23)
      then (if label / 2 ^ 23 = 0 then label % 2 ^ 23 else 2 ^ 23 + label % 2 ^ 23)
        * 2 ^ ((if label / 2 ^ 23 = 0 then 1 else label / 2 ^ 23) - 150)
      else (if label / 2 ^ 23 = 0 then label % 2 ^ 23 else 2 ^ 23 + label % 2 ^ 23)
        / 2 ^ (150 - (if label / 2 ^ 23 = 0 then 1 else label / 2 ^ 23))) = 0 := by
    have hex : (if label / 2 ^ 23 = 0 then 1 else label / 2 ^ 23) < 127 := by
      split_ifs <;> omega
    rw [if_neg (by omega)]
    apply Nat.div_eq_of_lt
    have hmant : (if label / 2 ^ 23 = 0 then label % 2 ^ 23 else 2 ^ 23 + label % 2 ^ 23)
        < 2 ^ 24 := by
      split_ifs <;> omega
    have hpow : 2 ^ 24 ≤ 2 ^ (150 - (if label / 2 ^ 23 = 0 then 1 else label / 2 ^ 23)) :=
      Nat.pow_le_pow_right (by norm_num) (by omega)
    omega
  rw [hmag]
  simp

theorem histLoop_collapse (labels : List Nat) (rest : List ℚ) (n : Nat) (j : Int) (m : Nat)
    (hj : 0 ≤ j) (hn : j + n ≤ labels.length) (hlab : ∀ x ∈ labels, x < 127 * 2 ^ 23)
    (hm : m ≤ 2 ^ 24) :
    histLoop labels j n ((m : ℚ) :: rest)
      = some (((min (m + n) (2 ^ 24) : ℕ) : ℚ) :: rest) := by
  induction n generalizing j m with
  | zero => simpa [histLoop] using hm
  | succ n ih =>
    have hjl : j.toNat < labels.length := by omega
    have hidx := labelIndex_small labels[j.toNat] (hlab _ (List.getElem_mem hjl))
    have hinc : incrementAt ((m : ℚ) :: rest) 0
        = some (((min (m + 1) (2 ^ 24) : ℕ) : ℚ) :: rest) := by
      simp [incrementAt, roundFloat_succ m hm]
    have hstep := ih (j + 1) (min (m + 1) (2 ^ 24)) (by omega) (by push_cast at hn ⊢; omega)
      (min_le_right _ _)
    simp only [histLoop, if_neg (not_lt.mpr hj), List.getElem?_eq_getElem hjl, hidx, hinc]
    rw [hstep]
    congr 3
    omega

theorem countWords_collapse (K : Nat) (labels : List Nat) (s e : Int) (hK : 1 ≤ K)
    (hlab : ∀ x ∈ labels, x < 127 * 2 ^ 23) (hs : 0 ≤ s) (hse : s ≤ e)
    (he : e ≤ labels.length) :
    countWords K labels s e
      = some (((min (e - s).toNat (2 ^ 24) : ℕ) : ℚ) :: List.replicate (K - 1) 0) := by
  obtain ⟨k, rfl⟩ : ∃ k, K = k + 1 := ⟨K - 1, by omega⟩
  have h := histLoop_collapse labels (List.replicate k 0) (e - s).toNat s 0 hs (by omega)
    hlab (by norm_num)
  simp only [Nat.cast_zero, zero_add] at h
  simpa [countWords, List.replicate_succ] using h

theorem countWords_empty (K : Nat) (labels : List Nat) (s : Int) :
    countWords K labels s s = some (List.replicate K 0) := by
  simp [countWords, histLoop]

/-! ## Properties of the min-max normalisation -/

theorem foldl_min_replicate_zero (k : Nat) (i : ℚ) (hi : 0 ≤ i) :
    (List.replicate k (0 : ℚ)).foldl min i = if k = 0 then i else 0 := by
  induction k generalizing i with
  | zero => simp
  | succ k ih =>
    rw [List.replicate_succ, List.foldl_cons, ih (min i 0) (le_min hi (le_refl 0))]
    simp [min_eq_right hi]

theorem foldl_max_replicate_zero (k : Nat) (i : ℚ) (hi : 0 ≤ i) :
    (List.replicate k (0 : ℚ)).foldl max i = i := by
  induction k generalizing i with
  | zero => simp
  | succ k ih =>
    rw [List.replicate_succ, List.foldl_cons, max_eq_left hi, ih i hi]

theorem minMaxIdx_cons_zeros (c : ℚ) (k : Nat) (hc : 0 ≤ c) :
    minMaxIdx (c :: List.replicate k 0) = (if k = 0 then c else 0, c) := by
  simp only [minMaxIdx, List.headD_cons, List.foldl_cons, min_self, max_self,
    foldl_min_replicate_zero k c hc, foldl_max_replicate_zero k c hc]

theorem minMaxIdx_replicate_zero (K : Nat) :
    minMaxIdx (List.replicate K (0 : ℚ)) = (0, 0) := by
  cases K with
  | zero => simp [minMaxIdx]
  | succ k =>
    rw [List.replicate_succ, minMaxIdx_cons_zeros 0 k (le_refl 0)]
    simp

theorem minMaxScale_degenerate (src : List ℚ) (a b : ℚ)
    (h : (minMaxIdx src).2 - (minMaxIdx src).1 = 0) : minMaxScale src a b = 0 := by
  have hg : ¬ (roundDouble ((minMaxIdx src).2 - (minMaxIdx src).1) > DBL_EPSILON) := by
    rw [h, roundDouble_zero]
    norm_num [DBL_EPSILON]
  unfold minMaxScale
  rw [if_neg hg, mul_zero, roundDouble_zero, roundFloat_zero]

theorem normalize_degenerate (src : List ℚ)
    (h : (minMaxIdx src).2 - (minMaxIdx src).1 = 0) :
    normalize src 0 histRows = src.map (fun _ => 0) := by
  have hs := minMaxScale_degenerate src 0 histRows h
  have hshift : minMaxShift src 0 histRows = 0 := by
    unfold minMaxShift
    rw [hs, mul_zero, roundDouble_zero, roundFloat_zero]
    simp [histRows, roundFloat_zero]
  unfold normalize
  rw [hs, hshift]
  simp [roundFloat_zero]

theorem minMaxScale_replicate_zero (K : Nat) (a b : ℚ) :
    minMaxScale (List.replicate K (0 : ℚ)) a b = 0 :=
  minMaxScale_degenerate _ a b (by rw [minMaxIdx_replicate_zero]; simp)

theorem normalize_replicate_zero (K : Nat) :
    normalize (List.replicate K (0 : ℚ)) 0 histRows = List.replicate K 0 := by
  rw [normalize_degenerate _ (by rw [minMaxIdx_replicate_zero]; simp)]
  simp

theorem normalize_length (src : List ℚ) (a b : ℚ) : (normalize src a b).length = src.length := by
  simp [normalize]

theorem encode_empty (K : Nat) (labels : List Nat) (s : Int) :
    encode K labels s s = some (List.replicate K 0) := by
  rw [encode, countWords_empty, Option.map_some', normalize_replicate_zero]

theorem roundDouble_half : roundDouble (1 / 2) = 1 / 2 := by
  have := roundBinary_two_zpow 53 (-1022) (-1) (by norm_num) (by norm_num)
  have e : ((2 : ℚ) ^ (-1 : ℤ)) = 1 / 2 := by norm_num
  rw [e] at this
  exact this

theorem roundFloat_half : roundFloat (1 / 2) = 1 / 2 := by
  have := roundBinary_two_zpow 24 (-126) (-1) (by norm_num) (by norm_num)
  have e : ((2 : ℚ) ^ (-1 : ℤ)) = 1 / 2 := by norm_num
  rw [e] at this
  exact this

theorem roundDouble_two : roundDouble 2 = 2 := by
  have := roundDouble_natCast 2 (by norm_num)
  simpa using this

/-- Normalisation of a vector whose smallest entry is 0 and whose largest entry is 2. -/
theorem normalize_zero_two (src : List ℚ) (h : minMaxIdx src = (0, 2)) :
    normalize src 0 histRows = src.map (fun x => roundFloat (roundFloat (x * (1 / 2)) + 0)) := by
  have hscale : minMaxScale src 0 histRows = 1 / 2 := by
    unfold minMaxScale
    rw [h]
    simp only [sub_zero, roundDouble_two]
    rw [if_pos (by norm_num [DBL_EPSILON]), roundDouble_half]
    have h1 : max (0 : ℚ) (histRows : ℚ) - min (0 : ℚ) (histRows : ℚ) = 1 := by
      norm_num [histRows]
    rw [h1, roundDouble_one, one_mul, roundDouble_half, roundFloat_half]
  have hshift : minMaxShift src 0 histRows = 0 := by
    unfold minMaxShift
    rw [h]
    simp only [zero_mul, roundDouble_zero, roundFloat_zero]
    have h0 : min (0 : ℚ) (histRows : ℚ) = 0 := by norm_num [histRows]
    rw [h0, roundFloat_zero, sub_zero, roundFloat_zero]
  unfold normalize
  rw [hscale, hshift]

theorem normalize_two_zero : normalize [2, 0] 0 histRows = [1, 0] := by
  rw [normalize_zero_two _ (by norm_num [minMaxIdx])]
  norm_num [roundFloat_zero, roundFloat_one]

theorem normalize_zero_two_eq : normalize [0, 2] 0 histRows = [0, 1] := by
  rw [normalize_zero_two _ (by norm_num [minMaxIdx])]
  norm_num [roundFloat_zero, roundFloat_one]

/-! ## Properties of the assembly loop -/

theorem positiveCode_eq : positiveCode = [1, 0] := by
  simp [positiveCode, zeroCode]

theorem negativeCode_eq : negativeCode = [0, 1] := by
  simp [negativeCode, zeroCode]

theorem assembleFrom_spec (K : Nat) (labels : List Nat) (dps : List (DataPoint α))
    (ds : Dataset)
    (hok : ∀ dp ∈ dps, ∃ row, encode K labels dp.startRange dp.endRange = some row) :
    ∃ out, assembleFrom K labels dps ds = some out ∧
      out.trainingData.map some = ds.trainingData.map some ++
        dps.map (fun dp => encode K labels dp.startRange dp.endRange) ∧
      out.responses = ds.responses ++
        dps.map (fun dp => if dp.isPositive then positiveCode else negativeCode) := by
  induction dps generalizing ds with
  | nil => exact ⟨ds, rfl, by simp, by simp⟩
  | cons d rest ih =>
    obtain ⟨row, hrow⟩ := hok d (List.mem_cons_self _ _)
    obtain ⟨out, hout, h1, h2⟩ := ih
      { trainingData := ds.trainingData ++ [row]
        responses := ds.responses ++ [if d.isPositive then positiveCode else negativeCode] }
      (fun dp hdp => hok dp (List.mem_cons_of_mem _ hdp))
    refine ⟨out, ?_, ?_, ?_⟩
    · simp only [assembleFrom, hrow]
      exact hout
    · rw [h1, List.map_cons, hrow]
      simp
    · rw [h2, List.map_cons]
      simp

theorem assemble_spec (K : Nat) (labels : List Nat) (dps : List (DataPoint α))
    (hok : ∀ dp ∈ dps, ∃ row, encode K labels dp.startRange dp.endRange = some row) :
    ∃ out, assemble K labels dps = some out ∧
      out.trainingData.length = dps.length ∧ out.responses.length = dps.length ∧
      ∀ (i : Nat) (dp : DataPoint α), dps[i]? = some dp →
        out.trainingData[i]? = encode K labels dp.startRange dp.endRange ∧
        out.responses[i]? = some (if dp.isPositive then positiveCode else negativeCode) := by
  obtain ⟨out, hout, h1, h2⟩ := assembleFrom_spec K labels dps
    { trainingData := [], responses := [] } hok
  simp only [List.map_nil, List.nil_append] at h1 h2
  refine ⟨out, hout, ?_, ?_, fun i dp hi => ⟨?_, ?_⟩⟩
  · have := congrArg List.length h1
    simpa using this
  · rw [h2, List.length_map]
  · have := congrArg (fun l => l[i]?) h1
    simp only [List.getElem?_map, hi, Option.map_some'] at this
    cases hti : out.trainingData[i]? with
    | none => rw [hti] at this; simp at this
    | some r => rw [hti] at this; simpa using this
  · rw [h2, List.getElem?_map, hi, Option.map_some']

/-! ## Properties of `shuffleTrainingData` -/

theorem swapRows_eq {β : Type} [AddZeroClass β] (m : List (List β)) (r1 r2 : Nat)
    (h1 : r1 < m.length) (h2 : r2 < m.length) :
    swapRows m r1 r2 = some (m.set r1 (m.getD r2 [])) := by
  have hz : ∀ row : List β, row.map (fun x => x + 0) = row := by
    intro row
    simp
  have hlen : r2 < (m.set r1 (m.getD r2 [])).length := by
    rw [List.length_set]; exact h2
  simp only [swapRows, h1, h2, and_self, if_true, hz, Option.some.injEq]
  apply List.ext_getElem?
  intro n
  rw [List.getElem?_set]
  by_cases hn : r2 = n
  · subst hn
    rw [if_pos rfl, if_pos hlen]
    simp only [List.getD_eq_getElem?_getD, List.getElem?_set]
    by_cases h12 : r1 = r2
    · subst h12
      simp [h1]
    · simp [h12, h1, h2, List.getElem?_eq_getElem]
  · rw [if_neg hn]

theorem shuffleLoop_paired {β : Type} [AddZeroClass β] (draws : Nat → Nat × Nat)
    (m0 r0 : List (List β)) (n i : Nat) (m r : List (List β))
    (hm : m.length = m0.length) (hr : r.length = m0.length)
    (hdraws : ∀ k, i ≤ k → k < i + n → (draws k).1 < m0.length ∧ (draws k).2 < m0.length)
    (hinv : ∀ a, a < m0.length → ∃ k, k < m0.length ∧ m[a]? = m0[k]? ∧ r[a]? = r0[k]?) :
    ∃ m' r', shuffleLoop draws i n m r = some (m', r') ∧
      m'.length = m0.length ∧ r'.length = m0.length ∧
      ∀ a, a < m0.length → ∃ k, k < m0.length ∧ m'[a]? = m0[k]? ∧ r'[a]? = r0[k]? := by
  induction n generalizing i m r with
  | zero => exact ⟨m, r, rfl, hm, hr, hinv⟩
  | succ n ih =>
    obtain ⟨d1, d2⟩ := hdraws i (le_refl _) (by omega)
    have e1 := swapRows_eq m (draws i).1 (draws i).2 (by omega) (by omega)
    have e2 := swapRows_eq r (draws i).1 (draws i).2 (by omega) (by omega)
    obtain ⟨m', r', h, hl1, hl2, hp⟩ := ih (i + 1)
      (m.set (draws i).1 (m.getD (draws i).2 [])) (r.set (draws i).1 (r.getD (draws i).2 []))
      (by rw [List.length_set]; exact hm) (by rw [List.length_set]; exact hr)
      (fun k hk1 hk2 => hdraws k (by omega) (by omega))
      (fun a ha => by
        by_cases hx : (draws i).1 = a
        · obtain ⟨k, hk, hk1, hk2⟩ := hinv (draws i).2 d2
          refine ⟨k, hk, ?_, ?_⟩
          · rw [List.getElem?_set, if_pos hx, if_pos (by omega), ← hk1,
              List.getD_eq_getElem?_getD, List.getElem?_eq_getElem (by omega)]
            rfl
          · rw [List.getElem?_set, if_pos hx, if_pos (by omega), ← hk2,
              List.getD_eq_getElem?_getD, List.getElem?_eq_getElem (by omega)]
            rfl
        · obtain ⟨k, hk, hk1, hk2⟩ := hinv a ha
          refine ⟨k, hk, ?_, ?_⟩
          · rw [List.getElem?_set, if_neg hx]; exact hk1
          · rw [List.getElem?_set, if_neg hx]; exact hk2)
    refine ⟨m', r', ?_, hl1, hl2, hp⟩
    simp only [shuffleLoop, e1, e2]
    exact h

/-! ## The claims -/

/-- C1, the claim fails: two images with 1,100,000,000 keypoints each.  The second
`endRange` is `1100000000 + 1100000000` narrowed to `int`, that is `-2094967296`: the range
is not `startRange <= endRange` and its size is not the number of keypoints. -/
theorem getDescriptorsAndKeypoints_wraps :
    (getDescriptorsAndKeypoints scenarioVision hugeEntries).map
        (fun dp => (dp.startRange, dp.endRange))
      = [(0, 1100000000), (1100000000, -2094967296)] ∧
    (getDescriptorsAndKeypoints scenarioVision hugeEntries).map
        (fun dp => (scenarioVision.imread dp.fileName).map
          (fun img => (scenarioVision.sift img).keypoints))
      = [some 1100000000, some 1100000000] ∧
    ∃ dp ∈ getDescriptorsAndKeypoints scenarioVision hugeEntries,
      dp.endRange < dp.startRange := by
  decide

/-- C1, as amended: when the keypoints of the readable images sum to less than `2 ^ 31`,
the data points returned by `getDescriptorsAndKeypoints` are those of the readable
images, in directory order; the first starts at 0, each later one starts where the
previous one ends, and the size of a range is the number of keypoints the detector left
for that image (the number of its descriptor rows when the detector yields one row per
keypoint); an unreadable image yields no data point and leaves every range as it is
without that entry. -/
theorem getDescriptorsAndKeypoints_ranges (W : Vision Img α) (v : List (List Char))
    (hsize : totalKeypoints W v < 2 ^ 31) :
    (getDescriptorsAndKeypoints W v).map (fun dp => dp.fileName)
        = v.filter (fun p => (W.imread p).isSome) ∧
    (∀ dp : DataPoint α, (getDescriptorsAndKeypoints W v).head? = some dp →
        dp.startRange = 0) ∧
    (∀ (i : Nat) (dp dp' : DataPoint α), (getDescriptorsAndKeypoints W v)[i]? = some dp →
        (getDescriptorsAndKeypoints W v)[i + 1]? = some dp' →
        dp'.startRange = dp.endRange) ∧
    (∀ dp ∈ getDescriptorsAndKeypoints W v, ∃ img, W.imread dp.fileName = some img ∧
        dp.startRange ≤ dp.endRange ∧
        dp.endRange - dp.startRange = (W.sift img).keypoints ∧
        dp.descriptors = (W.sift img).descriptors ∧
        ((W.sift img).descriptors.rows = (W.sift img).keypoints →
          dp.endRange - dp.startRange = dp.descriptors.rows)) ∧
    (∀ (pre post : List (List Char)) (p : List Char), v = pre ++ p :: post →
        W.imread p = none →
        getDescriptorsAndKeypoints W v = getDescriptorsAndKeypoints W (pre ++ post)) := by
  refine ⟨getFrom_fileNames W v 0, fun dp h => getFrom_head W v 0 dp h,
    fun i dp dp' h h' => getFrom_chain W v 0 i dp dp' h h', fun dp hdp => ?_,
    fun pre post p hv hp => ?_⟩
  · obtain ⟨_, _, img, himg, hdesc⟩ := getFrom_mem W v 0 dp hdp
    obtain ⟨_, img', himg', hend⟩ := getFrom_sizes W v 0 (le_refl 0) (by omega) dp hdp
    have himg2 : img' = img := Option.some.inj (himg'.symm.trans himg)
    rw [himg2] at hend
    refine ⟨img, himg, by omega, by omega, hdesc, fun hrows => ?_⟩
    rw [hdesc, hrows]
    omega
  · subst hv
    exact getFrom_skip W pre post p 0 hp

/-- C1, scenario: images with 3, 4 and 3 keypoints, an unreadable file among them, get
the ranges `[0,3)`, `[3,7)`, `[7,10)`. -/
theorem getDescriptorsAndKeypoints_ranges_scenario :
    (getDescriptorsAndKeypoints scenarioVision scenarioEntries).map
        (fun dp => (dp.startRange, dp.endRange)) = [(0, 3), (3, 7), (7, 10)] ∧
    (getDescriptorsAndKeypoints scenarioVision scenarioEntries).map (fun dp => dp.fileName)
        = scenarioEntries.filter (fun p => (scenarioVision.imread p).isSome) :=
  ⟨by decide,
    (getDescriptorsAndKeypoints_ranges scenarioVision scenarioEntries (by decide)).1⟩

/-- C3, the failing input: `K = 4`, the ten labels of the scenario and the range `[3,7)`.
The four indices carry the labels 3, 0, 1, 2, one per word, but every label read through
`labels.at<float>(j)` addresses entry 0: the histogram is `[4,0,0,0]`. -/
theorem countWords_collapses_to_word_zero :
    countWords 4 scenarioLabels 3 7 = some [4, 0, 0, 0] ∧
    (List.range' 3 4).map (fun j => scenarioLabels[j]?) = [some 3, some 0, some 1, some 2] := by
  constructor
  · have h := countWords_collapse 4 scenarioLabels 3 7 (by norm_num) (by decide)
      (by norm_num) (by norm_num) (by decide)
    have e : min ((7 : Int) - 3).toNat (2 ^ 24) = 4 := by decide
    rw [h, e]
    norm_num [List.replicate]
  · decide

/-- C4, the failing input: two rows, both iterations draw `(0, 1)`.  Row 0 receives row 1,
and row 1 then receives row 0 as overwritten, so the pair `([1], [1,0])` is lost and the
pair `([2], [0,1])` is there twice: the result is no permutation of the input. -/
theorem shuffleTrainingData_loses_row :
    shuffleTrainingData [[(1 : Int)], [2]] [[1, 0], [0, 1]] (fun _ => (0, 1))
      = some ([[2], [2]], [[0, 1], [0, 1]]) ∧
    ¬ List.Perm (List.zip [[(2 : Int)], [2]] [[(0 : Int), 1], [0, 1]])
      (List.zip [[(1 : Int)], [2]] [[(1 : Int), 0], [0, 1]]) := by
  decide

/-- C5, the failing input: `K = 2`, the labels `1, 1` and one positive data point with the
range `[0,2)`.  Both descriptors belong to word 1, whose normalised histogram is `[0,1]`;
the row pushed to `trainingData` is `[1,0]`, beside the label row `[1,0]`. -/
theorem assemble_row_not_histogram :
    (∃ ds, assemble 2 [1, 1] [pairPoint] = some ds ∧
      ds.trainingData = [[1, 0]] ∧ ds.responses = [[1, 0]]) ∧
    (List.range' 0 2).map (fun j => [1, 1][j]?) = [some 1, some 1] ∧
    normalize [0, 2] 0 histRows = [0, 1] := by
  refine ⟨?_, by decide, normalize_zero_two_eq⟩
  have hc : countWords 2 [1, 1] pairPoint.startRange pairPoint.endRange = some [2, 0] := by
    have h := countWords_collapse 2 [1, 1] 0 2 (by norm_num) (by decide)
      (by norm_num) (by norm_num) (by decide)
    have e : min ((2 : Int) - 0).toNat (2 ^ 24) = 2 := by decide
    rw [e] at h
    simpa [pairPoint, List.replicate] using h
  have he : encode 2 [1, 1] pairPoint.startRange pairPoint.endRange = some [1, 0] := by
    rw [encode, hc, Option.map_some', normalize_two_zero]
  refine ⟨_, by simp only [assemble, assembleFrom, he]; rfl, ?_, ?_⟩
  · simp
  · simp [pairPoint, positiveCode_eq]

/-- C6, the claim fails: with a pool of 10 rows and images of 3, 4 and 4 descriptors the
eleven rows exceed the capacity, no error is raised, and the copy loop assigns the cells of
row 10. -/
theorem copyDescriptors_writes_past_capacity :
    10 < (copyDescriptors (getDescriptorsAndKeypoints scenarioVision overflowEntries)).dataCount ∧
    ∃ w ∈ (copyDescriptors (getDescriptorsAndKeypoints scenarioVision overflowEntries)).writes,
      10 ≤ w.row := by
  decide

/-- C6, as amended: the copy loop has no capacity check.  It assigns exactly the cells
`(startRange + i, j)` for the rows `i` and columns `j` of the descriptors of every data
point; a row at an index `>= capacity` is assigned exactly when some data point with
descriptors has `startRange + descriptors.rows > capacity`; and when `dataCount` exceeds
the capacity, the run fails afterwards, in the assertion of `pop_back`. -/
theorem copyDescriptors_unchecked (dps : List (DataPoint α)) (capacity : Nat) :
    (∀ w : CellWrite α, w ∈ (copyDescriptors dps).writes ↔
      ∃ dp ∈ dps, ∃ i, i < dp.descriptors.rows ∧ ∃ j, j < dp.descriptors.cols ∧
        w = { row := dp.startRange + (i : Int), col := j,
              value := dp.descriptors.atFloat i j }) ∧
    ((∃ w ∈ (copyDescriptors dps).writes, (capacity : Int) ≤ w.row) ↔
      ∃ dp ∈ dps, 0 < dp.descriptors.cols ∧ 0 < dp.descriptors.rows ∧
        (capacity : Int) < dp.startRange + (dp.descriptors.rows : Int)) ∧
    (capacity < (copyDescriptors dps).dataCount → (copyDescriptors dps).dataCount < 2 ^ 31 →
      trimmedLength capacity dps = none) := by
  refine ⟨mem_copyDescriptors_writes dps, ?_, fun h1 h2 => trimStep_of_gt _ _ h1 h2⟩
  constructor
  · rintro ⟨w, hw, hcap⟩
    obtain ⟨dp, hdp, i, hi, j, hj, rfl⟩ := (mem_copyDescriptors_writes dps w).mp hw
    exact ⟨dp, hdp, by omega, by omega, by simp only at hcap; omega⟩
  · rintro ⟨dp, hdp, hc, hr, hcap⟩
    refine ⟨{ row := dp.startRange + ((dp.descriptors.rows - 1 : Nat) : Int), col := 0,
              value := dp.descriptors.atFloat (dp.descriptors.rows - 1) 0 }, ?_, ?_⟩
    · exact (mem_copyDescriptors_writes dps _).mpr
        ⟨dp, hdp, dp.descriptors.rows - 1, by omega, 0, hc, rfl⟩
    · simp only
      omega

/-- C6, instance of the amended claim: the pool of 10 rows and the eleven descriptor rows. -/
theorem copyDescriptors_unchecked_scenario :
    ((∃ w ∈ (copyDescriptors (getDescriptorsAndKeypoints scenarioVision overflowEntries)).writes,
        ((10 : Nat) : Int) ≤ w.row) ↔
      ∃ dp ∈ getDescriptorsAndKeypoints scenarioVision overflowEntries,
        0 < dp.descriptors.cols ∧ 0 < dp.descriptors.rows ∧
        ((10 : Nat) : Int) < dp.startRange + (dp.descriptors.rows : Int)) ∧
    trimmedLength 10 (getDescriptorsAndKeypoints scenarioVision overflowEntries) = none :=
  ⟨(copyDescriptors_unchecked
      (getDescriptorsAndKeypoints scenarioVision overflowEntries) 10).2.1,
    (copyDescriptors_unchecked
      (getDescriptorsAndKeypoints scenarioVision overflowEntries) 10).2.2
      (by decide) (by decide)⟩

/-- C8: for `K >= 1` and a data point with an empty range, the histogram encoding
succeeds, the scale factor of the normalisation is 0 (the quotient `1 / (max - min)` is
not formed), and the row pushed to `trainingData` is the vector of `K` zeros. -/
theorem encode_empty_range (K : Nat) (labels : List Nat) (dp : DataPoint α)
    (hK : 1 ≤ K) (hempty : dp.startRange = dp.endRange) :
    encode K labels dp.startRange dp.endRange = some (List.replicate K 0) ∧
    List.replicate K (0 : ℚ) ≠ [] ∧
    minMaxScale (List.replicate K 0) 0 histRows = 0 ∧
    ∃ ds, assemble K labels [dp] = some ds ∧ ds.trainingData = [List.replicate K 0] := by
  have henc : encode K labels dp.startRange dp.endRange = some (List.replicate K 0) := by
    rw [← hempty]
    exact encode_empty K labels dp.startRange
  refine ⟨henc, ?_, minMaxScale_replicate_zero K 0 histRows, ?_⟩
  · intro h
    have := congrArg List.length h
    simp at this
    omega
  · simp [assemble, assembleFrom, henc]

/-- C8, instance: `K = 4` and a data point with the range `[3,3)`. -/
theorem encode_empty_range_scenario :
    encode 4 scenarioLabels 3 3 = some (List.replicate 4 0) ∧
    List.replicate 4 (0 : ℚ) ≠ [] ∧
    minMaxScale (List.replicate 4 0) 0 histRows = 0 ∧
    ∃ ds, assemble 4 scenarioLabels [{ catPoint with endRange := 3 }] = some ds ∧
      ds.trainingData = [List.replicate 4 0] :=
  encode_empty_range 4 scenarioLabels { catPoint with endRange := 3 } (by decide) rfl

/-- C9: for path strings shorter than `npos`, a data point of `getDescriptorsAndKeypoints`
is positive if and only if its `fileName`, the path string of the entry, does not contain
`cat`. -/
theorem isPositive_iff_no_marker (W : Vision Img α) (v : List (List Char))
    (hlen : ∀ p ∈ v, p.length < npos) (dp : DataPoint α)
    (hdp : dp ∈ getDescriptorsAndKeypoints W v) :
    dp.isPositive = true ↔ ¬ marker <:+: dp.fileName := by
  obtain ⟨hmem, hpos, _⟩ := getFrom_mem W v 0 dp hdp
  rw [hpos, toSizeT_neg_one]
  exact find_eq_npos_iff dp.fileName marker (hlen _ hmem)

/-- C9, instance: the data point of `cat_b.jpg` is negative. -/
theorem isPositive_iff_no_marker_scenario :
    catPoint.isPositive = false ∧
    (catPoint.isPositive = true ↔ ¬ marker <:+: catPoint.fileName) :=
  ⟨rfl, isPositive_iff_no_marker scenarioVision scenarioEntries (by decide) catPoint
    (List.getElem?_mem
      (rfl : (getDescriptorsAndKeypoints scenarioVision scenarioEntries)[1]? = some catPoint))⟩

/-- C10: for matrices with the same number of rows and index pairs drawn among the rows,
`shuffleTrainingData` returns, keeps the row counts, and every row index `i` of the result
holds the feature row and the label row of one and the same original index `k`. -/
theorem shuffleTrainingData_paired {β : Type} [AddZeroClass β] (m responses : List (List β))
    (draws : Nat → Nat × Nat) (hrows : m.length = responses.length)
    (hdraws : ∀ i, i < responses.length →
      (draws i).1 < responses.length ∧ (draws i).2 < responses.length) :
    ∃ m' responses', shuffleTrainingData m responses draws = some (m', responses') ∧
      m'.length = m.length ∧ responses'.length = responses.length ∧
      ∀ i, i < m.length → ∃ k, k < m.length ∧
        m'[i]? = m[k]? ∧ responses'[i]? = responses[k]? := by
  obtain ⟨m', r', h, hl1, hl2, hp⟩ := shuffleLoop_paired draws m responses responses.length 0
    m responses rfl hrows.symm
    (fun k _ hk => by rw [hrows]; exact hdraws k (by omega))
    (fun a ha => ⟨a, ha, rfl, rfl⟩)
  exact ⟨m', r', h, hl1, by rw [hl2, hrows], hp⟩

/-- C10, instance: two rows and the draws `(0, 1)`, `(0, 1)`. -/
theorem shuffleTrainingData_paired_scenario :
    ∃ m' responses', shuffleTrainingData [[(1 : Int)], [2]] [[1, 0], [0, 1]]
        (fun _ => (0, 1)) = some (m', responses') ∧
      m'.length = [[(1 : Int)], [2]].length ∧
      responses'.length = [[(1 : Int), 0], [0, 1]].length ∧
      ∀ i, i < [[(1 : Int)], [2]].length → ∃ k, k < [[(1 : Int)], [2]].length ∧
        m'[i]? = [[(1 : Int)], [2]][k]? ∧ responses'[i]? = [[(1 : Int), 0], [0, 1]][k]? :=
  shuffleTrainingData_paired [[(1 : Int)], [2]] [[1, 0], [0, 1]] (fun _ => (0, 1))
    (by decide) (by decide)

end SmokeDetection
